import Mathlib

/-!
# Verification of the mont task-graph engine against its specification

The repository ships the mont extension (src/extensions/index.ts) together
with the task records and design documents of the mont CLI itself; the Rust
core of the CLI (graph builder, gate engine, readiness engine, priority
propagator, display pipeline) is not part of the source tree. Definitions
for that core are therefore modelled from the specification, as marked in
their doc comments; definitions for the extension are translated from
src/extensions/index.ts.
-/

namespace Mont

/-- Modelled from the spec: task kind, `jot | task | validator` (§3). -/
inductive TaskKind
  | jot
  | task
  | validator
deriving DecidableEq, Repr

/-- Modelled from the spec: gate status, `pending, passed, failed, skipped` (§3). -/
inductive GateStatus
  | pending
  | passed
  | failed
  | skipped
deriving DecidableEq, Repr

/-- Modelled from the spec: a gate entry `{name, status}` of a task (§3). -/
structure Gate where
  name : String
  status : GateStatus
deriving DecidableEq, Repr

/-- Modelled from the spec: the task record (§3).  The containing/parent
relationship used by the root-validator rule is kept as an explicit
`parents` field, following the design record `src/.tasks/form-graph.md`
(a root validator is one with no parent); `inProgress = some n` models a
task that is currently in progress with session counter `n`. -/
structure Task where
  id : String
  title : String := ""
  kind : TaskKind := .task
  parents : List String := []
  before : List String := []
  after : List String := []
  validations : List String := []
  gates : List Gate := []
  complete : Bool := false
  inProgress : Option Nat := none
  priority : Int := 0
deriving DecidableEq, Repr

/-- Lookup of a task record by id (resolution of a reference). -/
def findTask (ts : List Task) (i : String) : Option Task :=
  ts.find? (fun t => t.id == i)

/-- Whether an id resolves to an existing task. -/
def hasId (ts : List Task) (i : String) : Bool :=
  ts.any (fun t => t.id == i)

/-- The ids of a record set. -/
def taskIds (ts : List Task) : List String :=
  ts.map (fun t => t.id)

/-- The `after`-edge adjacency of a record set: the dependencies declared
by the task an id resolves to (none when the id does not resolve). -/
def adjOf (ts : List Task) (i : String) : List String :=
  match findTask ts i with
  | some t => t.after
  | none => []

/-! ## Reachability in a finite directed graph

A generic fuel-bounded reachability check together with an inductive
path predicate, and their equivalence on graphs whose edges stay inside a
finite node list.  This backs the cycle check of the graph builder and the
alternate-path test of transitive reduction. -/

/-- A path of one or more edges from `a` to `c`; the list collects the
nodes visited after `a`, excluding the final node `c` . -/
inductive Steps (adj : String → List String) : String → List String → String → Prop
  | single {a c : String} (h : c ∈ adj a) : Steps adj a [] c
  | cons {a b c : String} {l : List String} (h : b ∈ adj a)
      (t : Steps adj b l c) : Steps adj a (b :: l) c

/-- `c` is reachable from `a` by a path of at least one edge. -/
def Reaches (adj : String → List String) (a c : String) : Prop :=
  ∃ l, Steps adj a l c

/-- Fuel-bounded reachability: is there a path of at most `fuel` edges
from `a` to `c`? -/
def reachB (adj : String → List String) : Nat → String → String → Bool
  | 0, _, _ => false
  | n + 1, a, c => (adj a).any (fun b => b == c || reachB adj n b c)

theorem reachB_sound {adj : String → List String} :
    ∀ {n a c}, reachB adj n a c = true → Reaches adj a c := by
  intro n
  induction n with
  | zero => intro a c h; simp [reachB] at h
  | succ n ih =>
    intro a c h
    simp only [reachB, List.any_eq_true, Bool.or_eq_true, beq_iff_eq] at h
    rcases h with ⟨b, hb, rfl | hr⟩
    · exact ⟨[], Steps.single hb⟩
    · obtain ⟨l, hl⟩ := ih hr
      exact ⟨b :: l, Steps.cons hb hl⟩

theorem reachB_succ_iff {adj : String → List String} {n : Nat} {a c : String} :
    reachB adj (n + 1) a c = true ↔
      ∃ b ∈ adj a, b = c ∨ reachB adj n b c = true := by
  simp [reachB]

theorem reachB_mono {adj : String → List String} :
    ∀ {m n a c}, m ≤ n → reachB adj m a c = true → reachB adj n a c = true := by
  intro m
  induction m with
  | zero => intro n a c _ h; simp [reachB] at h
  | succ m ih =>
    intro n a c hmn h
    obtain ⟨k, rfl⟩ := Nat.exists_eq_add_of_le hmn
    have hsh : m + 1 + k = (m + k) + 1 := by omega
    rw [hsh, reachB_succ_iff]
    obtain ⟨b, hb, hr⟩ := reachB_succ_iff.mp h
    rcases hr with hr | hr
    · exact ⟨b, hb, Or.inl hr⟩
    · exact ⟨b, hb, Or.inr (ih (Nat.le_add_right m k) hr)⟩

theorem steps_reachB {adj : String → List String} :
    ∀ {a l c}, Steps adj a l c → reachB adj (l.length + 1) a c = true := by
  intro a l c h
  induction h with
  | single h =>
    rw [List.length_nil, reachB_succ_iff]
    exact ⟨_, h, Or.inl rfl⟩
  | cons h _ ih =>
    rw [List.length_cons, reachB_succ_iff]
    exact ⟨_, h, Or.inr ih⟩

theorem steps_suffix {adj : String → List String} :
    ∀ {l₁ : List String} {a x c : String} {l₂ : List String},
      Steps adj a (l₁ ++ x :: l₂) c → Steps adj x l₂ c := by
  intro l₁
  induction l₁ with
  | nil =>
    intro a x c l₂ h
    cases h with
    | cons _ t => exact t
  | cons b l₁ ih =>
    intro a x c l₂ h
    cases h with
    | cons _ t => exact ih t

theorem steps_replace {adj : String → List String} :
    ∀ {l₁ : List String} {a x c : String} {l₂ l₃ : List String},
      Steps adj a (l₁ ++ x :: l₂) c → Steps adj x l₃ c →
      Steps adj a (l₁ ++ x :: l₃) c := by
  intro l₁
  induction l₁ with
  | nil =>
    intro a x c l₂ l₃ h hx
    cases h with
    | cons hb _ => exact Steps.cons hb hx
  | cons b l₁ ih =>
    intro a x c l₂ l₃ h hx
    cases h with
    | cons hb t => exact Steps.cons hb (ih t hx)

/-- A list that is not duplicate-free contains some element twice. -/
theorem not_nodup_decomp :
    ∀ {l : List String}, ¬ l.Nodup →
      ∃ x l₁ l₂ l₃, l = l₁ ++ x :: (l₂ ++ x :: l₃) := by
  intro l
  induction l with
  | nil => intro h; exact absurd List.nodup_nil h
  | cons a l ih =>
    intro h
    rw [List.nodup_cons] at h
    by_cases ha : a ∈ l
    · obtain ⟨s, t, rfl⟩ := List.append_of_mem ha
      exact ⟨a, [], s, t, by simp⟩
    · have hl : ¬ l.Nodup := by tauto
      obtain ⟨x, l₁, l₂, l₃, rfl⟩ := ih hl
      exact ⟨x, a :: l₁, l₂, l₃, by simp⟩

theorem steps_shorten_aux {adj : String → List String} :
    ∀ (n : Nat) {l : List String} {a c : String}, l.length ≤ n →
      Steps adj a l c → ∃ l₄, Steps adj a l₄ c ∧ l₄.Nodup ∧ a ∉ l₄ := by
  intro n
  induction n with
  | zero =>
    intro l a c hlen h
    have : l = [] := List.length_eq_zero.mp (Nat.le_zero.mp hlen)
    subst this
    exact ⟨[], h, List.nodup_nil, List.not_mem_nil a⟩
  | succ n ih =>
    intro l a c hlen h
    by_cases hmem : a ∈ l
    · obtain ⟨s, t, rfl⟩ := List.append_of_mem hmem
      have h2 : Steps adj a t c := steps_suffix h
      have ht : t.length ≤ n := by
        simp only [List.length_append, List.length_cons] at hlen
        omega
      exact ih ht h2
    · by_cases hnd : l.Nodup
      · exact ⟨l, h, hnd, hmem⟩
      · obtain ⟨x, l₁, l₂, l₃, rfl⟩ := not_nodup_decomp hnd
        have hx3 : Steps adj x l₃ c := steps_suffix (steps_suffix h)
        have hrepl : Steps adj a (l₁ ++ x :: l₃) c := steps_replace h hx3
        have hlen2 : (l₁ ++ x :: l₃).length ≤ n := by
          simp only [List.length_append, List.length_cons] at hlen ⊢
          omega
        exact ih hlen2 hrepl

/-- Every path can be shortened to a path with pairwise-distinct
intermediate nodes, none of them the start node. -/
theorem steps_shorten {adj : String → List String} {l : List String}
    {a c : String} (h : Steps adj a l c) :
    ∃ l₄, Steps adj a l₄ c ∧ l₄.Nodup ∧ a ∉ l₄ :=
  steps_shorten_aux l.length le_rfl h

/-- On a graph whose edges point into `nodes`, every node a path visits
after its start, the final node included, lies in `nodes`. -/
theorem steps_mem_nodes {adj : String → List String} {nodes : List String}
    (hcl : ∀ x y, y ∈ adj x → y ∈ nodes) :
    ∀ {a l c}, Steps adj a l c → (∀ x ∈ l, x ∈ nodes) ∧ c ∈ nodes := by
  intro a l c h
  induction h with
  | single h => exact ⟨by simp, hcl _ _ h⟩
  | cons h t ih =>
    refine ⟨?_, ih.2⟩
    intro x hx
    rcases List.mem_cons.mp hx with rfl | hx
    · exact hcl _ _ h
    · exact ih.1 x hx

/-- The fuel-bounded check with fuel one more than the node count decides
reachability, on a graph whose edges point into `nodes`. -/
theorem reaches_iff_reachB {adj : String → List String} {nodes : List String}
    (hcl : ∀ x y, y ∈ adj x → y ∈ nodes) (a c : String) :
    Reaches adj a c ↔ reachB adj (nodes.length + 1) a c = true := by
  constructor
  · rintro ⟨l, h⟩
    obtain ⟨l₄, h₄, hnd, -⟩ := steps_shorten h
    have hsub : l₄ ⊆ nodes := fun x hx => (steps_mem_nodes hcl h₄).1 x hx
    have hle : l₄.length ≤ nodes.length := (hnd.subperm hsub).length_le
    exact reachB_mono (Nat.succ_le_succ hle) (steps_reachB h₄)
  · exact reachB_sound

/-- The graph has no nonempty path from a node back to itself. -/
def Acyclic (adj : String → List String) : Prop :=
  ∀ a, ¬ Reaches adj a a

/-- Decidable acyclicity test over a finite node list. -/
def acyclicB (nodes : List String) (adj : String → List String) : Bool :=
  nodes.all (fun a => ! reachB adj (nodes.length + 1) a a)

/-- On a graph whose edges point into `nodes`, the decidable test is
acyclicity. -/
theorem acyclicB_iff {adj : String → List String} {nodes : List String}
    (hcl : ∀ x y, y ∈ adj x → y ∈ nodes) :
    acyclicB nodes adj = true ↔ Acyclic adj := by
  constructor
  · intro hall a hr
    have ha : a ∈ nodes := by
      obtain ⟨l, h⟩ := hr
      exact (steps_mem_nodes hcl h).2
    have := List.all_eq_true.mp hall a ha
    rw [(reaches_iff_reachB hcl a a).mp hr] at this
    simp at this
  · intro hacy
    refine List.all_eq_true.mpr fun a _ => ?_
    by_contra hne
    have : reachB adj (nodes.length + 1) a a = true := by
      revert hne
      cases reachB adj (nodes.length + 1) a a <;> simp
    exact hacy a (reachB_sound this)

/-! ## Graph Builder (spec §4.1)

The Rust implementation (`src/graph.rs`, described by
`src/.tasks/form-graph.md`) is not in the source tree; `form_graph` is
modelled from the spec: the validation phases run in the spec order,
iterating tasks in id-sorted order and failing fast at the first
violation, and the cycle check is modelled as a decidable acyclicity test
over the `after`-edge graph. -/

/-- Modelled from the spec: the graph validation errors (§4.1, §7). -/
inductive GraphError
  | InvalidParent (taskId refId : String)
  | InvalidPrecondition (taskId refId : String)
  | InvalidValidation (taskId refId : String)
  | ValidationNotRootValidator (taskId refId : String)
  | CycleDetected
deriving DecidableEq, Repr

/-- Lexicographic less-or-equal on character lists, by code point. -/
def leChars : List Char → List Char → Bool
  | [], _ => true
  | _ :: _, [] => false
  | c :: cs, d :: ds =>
    if c.toNat < d.toNat then true
    else if d.toNat < c.toNat then false
    else leChars cs ds

/-- Executable lexicographic less-or-equal on strings. -/
def strLeB (a b : String) : Bool := leChars a.data b.data

/-- Insertion into an id-sorted task list. -/
def insertById (t : Task) : List Task → List Task
  | [] => [t]
  | u :: us => if strLeB t.id u.id then t :: u :: us else u :: insertById t us

/-- Id-sorted iteration order of a record set. -/
def sortById : List Task → List Task
  | [] => []
  | t :: rest => insertById t (sortById rest)

theorem insertById_perm (t : Task) :
    ∀ l : List Task, List.Perm (insertById t l) (t :: l) := by
  intro l
  induction l with
  | nil => simp [insertById]
  | cons u us ih =>
    rw [insertById]
    cases h : strLeB t.id u.id
    · simp only [h, Bool.false_eq_true, if_false]
      exact (ih.cons u).trans (List.Perm.swap t u us)
    · simp [h]

theorem sortById_perm : ∀ ts : List Task, List.Perm (sortById ts) ts := by
  intro ts
  induction ts with
  | nil => simp [sortById]
  | cons t rest ih =>
    rw [sortById]
    exact (insertById_perm t (sortById rest)).trans (ih.cons t)

theorem mem_sortById {t : Task} {ts : List Task} :
    t ∈ sortById ts ↔ t ∈ ts :=
  (sortById_perm ts).mem_iff

/-- The first violation a per-task check reports over an iteration order. -/
def firstError (f : Task → Option GraphError) : List Task → Option GraphError
  | [] => none
  | t :: rest =>
    match f t with
    | some e => some e
    | none => firstError f rest

theorem firstError_eq_none_iff {f : Task → Option GraphError} :
    ∀ {l : List Task}, firstError f l = none ↔ ∀ t ∈ l, f t = none := by
  intro l
  induction l with
  | nil => simp [firstError]
  | cons t rest ih =>
    rw [firstError]
    rcases h : f t with - | e
    · simpa [h] using ih
    · simp only [List.mem_cons]
      constructor
      · intro hc; cases hc
      · intro hall
        exact absurd (hall t (Or.inl rfl)) (by simp [h])

/-- Reference resolution for one task: the first unresolved `before` id
reports `InvalidParent`, then the first unresolved `after` id reports
`InvalidPrecondition` (§4.1). -/
def checkRefsTask (ts : List Task) (t : Task) : Option GraphError :=
  match t.before.find? (fun p => ! hasId ts p) with
  | some p => some (.InvalidParent t.id p)
  | none =>
    match t.after.find? (fun p => ! hasId ts p) with
    | some p => some (.InvalidPrecondition t.id p)
    | none => none

/-- A `validations` entry resolves to a validator-kind task with no
containing/parent relationship (§3, §4.1). -/
def RootValidatorTarget (ts : List Task) (v : String) : Prop :=
  ∃ u, findTask ts v = some u ∧ u.kind = TaskKind.validator ∧ u.parents = []

/-- Validation-reference check for one task, in spec order: unresolved
target, then non-validator target, then non-root validator (§4.1). -/
def checkValidationList (ts : List Task) (tid : String) :
    List String → Option GraphError
  | [] => none
  | v :: vs =>
    match findTask ts v with
    | none => some (.InvalidValidation tid v)
    | some u =>
      if u.kind ≠ TaskKind.validator then some (.InvalidValidation tid v)
      else if u.parents ≠ [] then some (.ValidationNotRootValidator tid v)
      else checkValidationList ts tid vs

theorem checkRefsTask_none_iff {ts : List Task} {t : Task} :
    checkRefsTask ts t = none ↔
      (∀ p ∈ t.before, hasId ts p = true) ∧
      (∀ p ∈ t.after, hasId ts p = true) := by
  unfold checkRefsTask
  rcases hb : t.before.find? (fun p => ! hasId ts p) with - | p
  · rcases ha : t.after.find? (fun p => ! hasId ts p) with - | q
    · constructor
      · intro _
        refine ⟨fun p hp => ?_, fun q hq => ?_⟩
        · simpa using List.find?_eq_none.mp hb p hp
        · simpa using List.find?_eq_none.mp ha q hq
      · intro _
        rfl
    · constructor
      · intro h; simp at h
      · rintro ⟨-, h2⟩
        have hqm := List.mem_of_find?_eq_some ha
        have hq := List.find?_some ha
        rw [h2 q hqm] at hq
        simp at hq
  · constructor
    · intro h; simp at h
    · rintro ⟨h1, -⟩
      have hpm := List.mem_of_find?_eq_some hb
      have hp := List.find?_some hb
      rw [h1 p hpm] at hp
      simp at hp

theorem checkValidationList_none_iff {ts : List Task} {tid : String} :
    ∀ {vs : List String},
      checkValidationList ts tid vs = none ↔
        ∀ v ∈ vs, RootValidatorTarget ts v := by
  intro vs
  induction vs with
  | nil => simp [checkValidationList]
  | cons v vs ih =>
    rw [checkValidationList]
    rcases hf : findTask ts v with - | u
    · constructor
      · intro h; simp at h
      · intro hall
        obtain ⟨u, hu, -⟩ := hall v (List.mem_cons_self v vs)
        rw [hf] at hu
        cases hu
    · by_cases hk : u.kind = TaskKind.validator
      · by_cases hp : u.parents = []
        · simp only [hk, hp, ne_eq, not_true_eq_false, if_false,
            not_false_eq_true, if_true]
          rw [ih]
          constructor
          · intro hall w hw
            rcases List.mem_cons.mp hw with rfl | hw2
            · exact ⟨u, hf, hk, hp⟩
            · exact hall w hw2
          · intro hall w hw
            exact hall w (List.mem_cons_of_mem v hw)
        · simp only [hk, hp, ne_eq, not_true_eq_false, if_false,
            not_false_eq_true, if_true]
          constructor
          · intro h; simp at h
          · intro hall
            obtain ⟨w, hw, -, hwp⟩ := hall v (List.mem_cons_self v vs)
            rw [hf] at hw
            cases hw
            exact absurd hwp hp
      · simp only [hk, ne_eq, not_false_eq_true, if_true]
        constructor
        · intro h; simp at h
        · intro hall
          obtain ⟨w, hw, hwk, -⟩ := hall v (List.mem_cons_self v vs)
          rw [hf] at hw
          cases hw
          exact absurd hwk hk

/-- Modelled from the spec: `form_graph(tasks) -> TaskGraph | GraphError`
(§4.1).  Phases run in the spec order over the id-sorted task list and
fail fast; only when every check passes is the full validated record set
returned — no partial graph exists on failure, by the shape of the
result type. -/
def form_graph (ts : List Task) : Except GraphError (List Task) :=
  match firstError (checkRefsTask ts) (sortById ts) with
  | some e => .error e
  | none =>
    match firstError (fun t => checkValidationList ts t.id t.validations)
        (sortById ts) with
    | some e => .error e
    | none =>
      if acyclicB (taskIds ts) (adjOf ts) then .ok ts else .error .CycleDetected

/-- When every `after` reference resolves, the `after`-edge graph stays
inside the record set's ids. -/
theorem adjOf_closed {ts : List Task}
    (h : ∀ t ∈ ts, ∀ p ∈ t.after, hasId ts p = true) :
    ∀ x y, y ∈ adjOf ts x → y ∈ taskIds ts := by
  intro x y hy
  unfold adjOf at hy
  rcases hf : findTask ts x with - | t
  · rw [hf] at hy; cases hy
  · rw [hf] at hy
    have htm : t ∈ ts := List.mem_of_find?_eq_some hf
    have := h t htm y hy
    simp only [hasId, List.any_eq_true, beq_iff_eq] at this
    obtain ⟨u, hu, rfl⟩ := this
    exact List.mem_map_of_mem (fun t => t.id) hu

theorem form_graph_ok_inv {ts g : List Task}
    (h : form_graph ts = Except.ok g) :
    g = ts ∧
    firstError (checkRefsTask ts) (sortById ts) = none ∧
    firstError (fun t => checkValidationList ts t.id t.validations)
      (sortById ts) = none ∧
    acyclicB (taskIds ts) (adjOf ts) = true := by
  unfold form_graph at h
  split at h
  · exact Except.noConfusion h
  · split at h
    · exact Except.noConfusion h
    · split at h
      · exact ⟨(Except.ok.inj h).symm, by assumption, by assumption,
          by assumption⟩
      · exact Except.noConfusion h

theorem firstError_refs_none_iff {ts : List Task} :
    firstError (checkRefsTask ts) (sortById ts) = none ↔
      (∀ t ∈ ts, ∀ p ∈ t.before, hasId ts p = true) ∧
      (∀ t ∈ ts, ∀ p ∈ t.after, hasId ts p = true) := by
  rw [firstError_eq_none_iff]
  constructor
  · intro h
    refine ⟨fun t ht => ?_, fun t ht => ?_⟩
    · exact (checkRefsTask_none_iff.mp (h t (mem_sortById.mpr ht))).1
    · exact (checkRefsTask_none_iff.mp (h t (mem_sortById.mpr ht))).2
  · rintro ⟨h1, h2⟩ t ht
    exact checkRefsTask_none_iff.mpr
      ⟨h1 t (mem_sortById.mp ht), h2 t (mem_sortById.mp ht)⟩

theorem firstError_validations_none_iff {ts : List Task} :
    firstError (fun t => checkValidationList ts t.id t.validations)
        (sortById ts) = none ↔
      ∀ t ∈ ts, ∀ v ∈ t.validations, RootValidatorTarget ts v := by
  rw [firstError_eq_none_iff]
  constructor
  · intro h t ht
    exact checkValidationList_none_iff.mp (h t (mem_sortById.mpr ht))
  · intro h t ht
    exact checkValidationList_none_iff.mpr (h t (mem_sortById.mp ht))

/-- C1: `form_graph` returns a validated graph exactly when every
`before`/`after` reference resolves, every `validations` entry resolves
to a root validator of validator kind, and the `after`-edge graph is
acyclic; the graph returned on success is the full record set, and on
failure only a `GraphError` is returned (no partial graph). -/
theorem form_graph_ok_iff (ts : List Task) :
    ((∃ g, form_graph ts = Except.ok g) ↔
      ((∀ t ∈ ts, ∀ p ∈ t.before, hasId ts p = true) ∧
       (∀ t ∈ ts, ∀ p ∈ t.after, hasId ts p = true) ∧
       (∀ t ∈ ts, ∀ v ∈ t.validations, RootValidatorTarget ts v) ∧
       Acyclic (adjOf ts))) ∧
    (∀ g, form_graph ts = Except.ok g → g = ts) ∧
    ((∃ g, form_graph ts = Except.ok g) ∨ ∃ e, form_graph ts = Except.error e) := by
  refine ⟨⟨?_, ?_⟩, fun g hg => (form_graph_ok_inv hg).1, ?_⟩
  · rintro ⟨g, hg⟩
    obtain ⟨-, h1, h2, h3⟩ := form_graph_ok_inv hg
    obtain ⟨hA, hB⟩ := firstError_refs_none_iff.mp h1
    exact ⟨hA, hB, firstError_validations_none_iff.mp h2,
      (acyclicB_iff (adjOf_closed hB)).mp h3⟩
  · rintro ⟨hA, hB, hV, hacy⟩
    have h1 := firstError_refs_none_iff.mpr ⟨hA, hB⟩
    have h2 := firstError_validations_none_iff.mpr hV
    have h3 : acyclicB (taskIds ts) (adjOf ts) = true :=
      (acyclicB_iff (adjOf_closed hB)).mpr hacy
    exact ⟨ts, by rw [form_graph, h1, h2, if_pos h3]⟩
  · rcases hfg : form_graph ts with e | g
    · exact Or.inr ⟨e, rfl⟩
    · exact Or.inl ⟨g, rfl⟩

/-! ## Readiness and Status Engine (spec §4.3)

The Rust implementation is absent from the source tree; the status
computation is modelled from the spec: a task is `Complete` when its
record says so, `InProgress n` while a work session is active, and
otherwise `Ready` exactly when it is not validator-kind and every
`after` dependency is complete, else `Blocked` (`NotStarted` is kept for
validator-kind tasks, which are never ready). -/

/-- Modelled from the spec: the lifecycle states (§4.3). -/
inductive TaskStatus
  | NotStarted
  | Ready
  | Blocked
  | InProgress (n : Nat)
  | GatesPending
  | Complete
deriving DecidableEq, Repr

/-- Every task in `t.after` resolves and is complete. -/
def depsComplete (ts : List Task) (t : Task) : Bool :=
  t.after.all fun i =>
    match findTask ts i with
    | some u => u.complete
    | none => false

/-- Modelled from the spec: the status cascade of the readiness engine
(§4.3). -/
def statusOf (ts : List Task) (t : Task) : TaskStatus :=
  if t.complete then .Complete
  else
    match t.inProgress with
    | some n => .InProgress n
    | none =>
      if t.kind = TaskKind.validator then .NotStarted
      else if depsComplete ts t then .Ready
      else .Blocked

/-- The ids of the tasks the readiness engine reports as ready, in record
order. -/
def readyIds (ts : List Task) : List String :=
  taskIds (ts.filter fun t => decide (statusOf ts t = TaskStatus.Ready))

/-- The three-task scenario graph: `A`, `B(after:[A])`, `C(after:[A])`,
with `A` complete exactly when `aDone` is set. -/
def scenarioABC (aDone : Bool) : List Task :=
  [{ id := "A", complete := aDone },
   { id := "B", after := ["A"] },
   { id := "C", after := ["A"] }]

theorem statusOf_complete_iff (ts : List Task) (u : Task) :
    statusOf ts u = TaskStatus.Complete ↔ u.complete = true := by
  unfold statusOf
  cases hc : u.complete
  · rcases hip : u.inProgress with - | n
    · by_cases hk : u.kind = TaskKind.validator
      · simp [hk]
      · cases hd : depsComplete ts u <;> simp [hk, hd]
    · simp
  · simp

theorem statusOf_eq_ready_iff (ts : List Task) (t : Task) :
    statusOf ts t = TaskStatus.Ready ↔
      (t.complete = false ∧ t.kind ≠ TaskKind.validator ∧
       t.inProgress = none ∧ depsComplete ts t = true) := by
  unfold statusOf
  cases hc : t.complete
  · rcases hip : t.inProgress with - | n
    · by_cases hk : t.kind = TaskKind.validator
      · simp [hk]
      · cases hd : depsComplete ts t <;> simp [hk, hd]
    · simp
  · simp

theorem depsComplete_iff (ts : List Task) (t : Task) :
    depsComplete ts t = true ↔
      ∀ i ∈ t.after, ∃ u, findTask ts i = some u ∧ u.complete = true := by
  rw [depsComplete, List.all_eq_true]
  constructor
  · intro h i hi
    have := h i hi
    rcases hf : findTask ts i with - | u
    · rw [hf] at this; cases this
    · rw [hf] at this
      exact ⟨u, rfl, this⟩
  · intro h i hi
    obtain ⟨u, hu, hc⟩ := h i hi
    rw [hu]
    exact hc

/-- C3: a task is reported `Ready` exactly when it is not complete, not
validator-kind, not currently in progress, and every `after` dependency
resolves to a complete task; in the scenario `A`, `B(after:[A])`,
`C(after:[A])` the ready set is exactly `{A}` while `A` is incomplete
and exactly `{B, C}` once `A` is complete. -/
theorem ready_iff_and_scenario :
    (∀ (ts : List Task) (t : Task),
      statusOf ts t = TaskStatus.Ready ↔
        (t.complete = false ∧ t.kind ≠ TaskKind.validator ∧
         t.inProgress = none ∧
         ∀ i ∈ t.after, ∃ u, findTask ts i = some u ∧
           statusOf ts u = TaskStatus.Complete)) ∧
    readyIds (scenarioABC false) = ["A"] ∧
    readyIds (scenarioABC true) = ["B", "C"] := by
  refine ⟨fun ts t => ?_, by rfl, by rfl⟩
  rw [statusOf_eq_ready_iff, depsComplete_iff]
  simp only [statusOf_complete_iff]

/-! ## Gate/Validator Engine (spec §4.2)

The Rust implementation is absent from the source tree; the gate
operations are modelled from the spec: each task's effective gate list is
the default gates followed by the task-declared gates, deduplicated by
name keeping the earliest occurrence, `unlock` turns a named gate
`passed` and fails with `GateNotFound` on an absent name, and `lock`
turns a `passed` gate back to `pending`, failing when the gate is absent
or not currently passed; failures leave the gate list unchanged. -/

/-- Modelled from the spec: the gate errors (§7). -/
inductive GateError
  | GateNotFound
  | GateNotPassed
  | CannotGateJot
deriving DecidableEq, Repr

/-- Deduplication by gate name, keeping the earliest occurrence's
position. -/
def dedupByName : List Gate → List Gate
  | [] => []
  | g :: gs => g :: dedupByName (gs.filter fun h => h.name != g.name)
termination_by gs => gs.length
decreasing_by
  simp only [List.length_cons]
  exact Nat.lt_succ_of_le (List.length_filter_le _ _)

/-- Modelled from the spec: a task's effective gate list — default gates
in configured order, then task-declared gates, deduplicated by name
keeping the earliest occurrence (§4.2). -/
def effectiveGates (defaults taskGates : List Gate) : List Gate :=
  dedupByName (defaults ++ taskGates)

/-- The status of the named gate in a gate list (the first occurrence). -/
def gateStatus (gs : List Gate) (name : String) : Option GateStatus :=
  (gs.find? fun g => g.name == name).map fun g => g.status

/-- Set the named gate's status, leaving every other entry in place. -/
def setGate : List Gate → String → GateStatus → List Gate
  | [], _, _ => []
  | g :: gs, name, s =>
    (if g.name == name then { g with status := s } else g) :: setGate gs name s

/-- Modelled from the spec: `unlock(task, name)` marks the named gate
`passed`, failing with `GateNotFound` when no gate of that name exists;
on failure the gate list is returned unchanged (§4.2). -/
def unlockGates (gs : List Gate) (name : String) : List Gate × Option GateError :=
  if gs.any (fun g => g.name == name) then
    (setGate gs name GateStatus.passed, none)
  else (gs, some GateError.GateNotFound)

/-- Modelled from the spec: `lock(task, name)` reverses a `passed` gate
to `pending`, failing when the named gate is absent or not currently
passed; on failure the gate list is returned unchanged (§4.2, §7). -/
def lockGates (gs : List Gate) (name : String) : List Gate × Option GateError :=
  match gs.find? (fun g => g.name == name) with
  | none => (gs, some GateError.GateNotFound)
  | some g =>
    if g.status = GateStatus.passed then
      (setGate gs name GateStatus.pending, none)
    else (gs, some GateError.GateNotPassed)

theorem mem_dedupByName_aux :
    ∀ (n : Nat) (gs : List Gate), gs.length ≤ n →
      ∀ {h : Gate}, h ∈ dedupByName gs → h ∈ gs := by
  intro n
  induction n with
  | zero =>
    intro gs hlen h hh
    have : gs = [] := List.length_eq_zero.mp (Nat.le_zero.mp hlen)
    subst this
    rw [dedupByName] at hh
    cases hh
  | succ n ih =>
    intro gs hlen h hh
    match gs with
    | [] => rw [dedupByName] at hh; cases hh
    | g :: rest =>
      rw [dedupByName] at hh
      rcases List.mem_cons.mp hh with rfl | hh2
      · exact List.mem_cons_self _ _
      · have hlen2 : (rest.filter fun h => h.name != g.name).length ≤ n := by
          have := List.length_filter_le (fun h => h.name != g.name) rest
          simp only [List.length_cons] at hlen
          omega
        exact List.mem_cons_of_mem g
          (List.mem_of_mem_filter (ih _ hlen2 hh2))

theorem mem_dedupByName {gs : List Gate} {h : Gate}
    (hh : h ∈ dedupByName gs) : h ∈ gs :=
  mem_dedupByName_aux gs.length gs le_rfl hh

theorem dedupByName_names_nodup_aux :
    ∀ (n : Nat) (gs : List Gate), gs.length ≤ n →
      ((dedupByName gs).map (fun g => g.name)).Nodup := by
  intro n
  induction n with
  | zero =>
    intro gs hlen
    have : gs = [] := List.length_eq_zero.mp (Nat.le_zero.mp hlen)
    subst this
    rw [dedupByName]
    simp
  | succ n ih =>
    intro gs hlen
    match gs with
    | [] => rw [dedupByName]; simp
    | g :: rest =>
      rw [dedupByName, List.map_cons, List.nodup_cons]
      have hlen2 : (rest.filter fun h => h.name != g.name).length ≤ n := by
        have := List.length_filter_le (fun h => h.name != g.name) rest
        simp only [List.length_cons] at hlen
        omega
      refine ⟨?_, ih _ hlen2⟩
      intro hmem
      obtain ⟨h, hh, hname⟩ := List.mem_map.mp hmem
      have := List.of_mem_filter (mem_dedupByName hh)
      rw [hname] at this
      simp at this

theorem dedupByName_names_nodup (gs : List Gate) :
    ((dedupByName gs).map (fun g => g.name)).Nodup :=
  dedupByName_names_nodup_aux gs.length gs le_rfl

theorem gateStatus_setGate_self : ∀ (gs : List Gate) (name : String)
    (s : GateStatus), gateStatus (setGate gs name s) name =
      (gateStatus gs name).map fun _ => s := by
  intro gs name s
  induction gs with
  | nil => rfl
  | cons g rest ih =>
    rw [setGate]
    cases hg : g.name == name
    · rw [if_neg (by simp)]
      unfold gateStatus at ih ⊢
      simp only [List.find?, hg]
      exact ih
    · rw [if_pos (show true = true from rfl)]
      unfold gateStatus
      simp only [List.find?, hg]
      rfl

theorem gateStatus_setGate_other : ∀ (gs : List Gate) (name o : String)
    (s : GateStatus), o ≠ name →
      gateStatus (setGate gs name s) o = gateStatus gs o := by
  intro gs name o s ho
  induction gs with
  | nil => rfl
  | cons g rest ih =>
    rw [setGate]
    cases hg : g.name == name
    · rw [if_neg (by simp)]
      cases hgo : g.name == o
      · unfold gateStatus at ih ⊢
        simp only [List.find?, hgo]
        exact ih
      · unfold gateStatus
        simp only [List.find?, hgo]
    · rw [if_pos (show true = true from rfl)]
      have hgn : g.name = name := by simpa using hg
      have hgo : (g.name == o) = false := by
        simp only [beq_eq_false_iff_ne, ne_eq, hgn]
        exact fun he => ho he.symm
      unfold gateStatus at ih ⊢
      simp only [List.find?, hgo]
      exact ih

theorem setGate_names : ∀ (gs : List Gate) (name : String) (s : GateStatus),
    (setGate gs name s).map (fun g => g.name) = gs.map fun g => g.name := by
  intro gs name s
  induction gs with
  | nil => rfl
  | cons g rest ih =>
    rw [setGate]
    cases hg : g.name == name
    · rw [if_neg (by simp), List.map_cons, List.map_cons, ih]
    · rw [if_pos rfl, List.map_cons, List.map_cons, ih]

theorem gateStatus_none_iff {gs : List Gate} {name : String} :
    gateStatus gs name = none ↔ (gs.any fun g => g.name == name) = false := by
  unfold gateStatus
  rw [Option.map_eq_none', List.find?_eq_none]
  constructor
  · intro h
    by_contra hne
    have : (gs.any fun g => g.name == name) = true := by
      revert hne
      cases gs.any fun g => g.name == name <;> simp
    obtain ⟨g, hgm, hgp⟩ := List.any_eq_true.mp this
    exact absurd hgp (by simpa using h g hgm)
  · intro h g hgm
    intro hgp
    have : (gs.any fun g => g.name == name) = true :=
      List.any_eq_true.mpr ⟨g, hgm, hgp⟩
    rw [h] at this
    cases this

/-- C5: on a task's effective gate list (whose names are pairwise
distinct), `unlock` on a pending or failed gate makes exactly that gate
`passed`, `lock` on a passed gate makes exactly that gate `pending`, and
each operation fails — `GateNotFound` for an absent name, `GateNotPassed`
for locking a non-passed gate — returning the gate list unchanged. -/
theorem unlock_lock_spec (ds tg : List Gate) (name : String) :
    (((effectiveGates ds tg).map (fun g => g.name)).Nodup) ∧
    (∀ egs : List Gate,
      (gateStatus egs name = none →
        unlockGates egs name = (egs, some GateError.GateNotFound) ∧
        lockGates egs name = (egs, some GateError.GateNotFound)) ∧
      (∀ s, gateStatus egs name = some s →
        (s = GateStatus.pending ∨ s = GateStatus.failed) →
        (unlockGates egs name).2 = none ∧
        gateStatus (unlockGates egs name).1 name = some GateStatus.passed ∧
        (∀ o, o ≠ name →
          gateStatus (unlockGates egs name).1 o = gateStatus egs o) ∧
        (unlockGates egs name).1.map (fun g => g.name) =
          egs.map fun g => g.name) ∧
      (∀ s, gateStatus egs name = some s → s ≠ GateStatus.passed →
        lockGates egs name = (egs, some GateError.GateNotPassed)) ∧
      (gateStatus egs name = some GateStatus.passed →
        (lockGates egs name).2 = none ∧
        gateStatus (lockGates egs name).1 name = some GateStatus.pending ∧
        (∀ o, o ≠ name →
          gateStatus (lockGates egs name).1 o = gateStatus egs o) ∧
        (lockGates egs name).1.map (fun g => g.name) =
          egs.map fun g => g.name)) := by
  refine ⟨dedupByName_names_nodup _, fun egs => ⟨?_, ?_, ?_, ?_⟩⟩
  · intro hnone
    have hany := gateStatus_none_iff.mp hnone
    have hfind : egs.find? (fun g => g.name == name) = none := by
      unfold gateStatus at hnone
      exact Option.map_eq_none'.mp hnone
    constructor
    · unfold unlockGates
      rw [hany]
      rfl
    · simp [lockGates, hfind]
  · intro s hs _
    unfold gateStatus at hs
    rcases hf : egs.find? (fun g => g.name == name) with - | g
    · rw [hf] at hs; cases hs
    · rw [hf] at hs
      have hgst : g.status = s := by simpa using hs
      have hprop := List.find?_some hf
      have hany : (egs.any fun g => g.name == name) = true :=
        List.any_eq_true.mpr ⟨g, List.mem_of_find?_eq_some hf, hprop⟩
      have hru : unlockGates egs name =
          (setGate egs name GateStatus.passed, none) := by
        unfold unlockGates
        rw [hany]
        rfl
      rw [hru]
      refine ⟨rfl, ?_, fun o ho => gateStatus_setGate_other egs name o _ ho,
        setGate_names egs name _⟩
      rw [gateStatus_setGate_self]
      unfold gateStatus
      rw [hf]
      rfl
  · intro s hs hsp
    unfold gateStatus at hs
    rcases hf : egs.find? (fun g => g.name == name) with - | g
    · rw [hf] at hs; cases hs
    · rw [hf] at hs
      have hgs : g.status = s := by simpa using hs
      have hne : ¬ g.status = GateStatus.passed := by rw [hgs]; exact hsp
      simp [lockGates, hf, hne]
  · intro hs
    unfold gateStatus at hs
    rcases hf : egs.find? (fun g => g.name == name) with - | g
    · rw [hf] at hs; cases hs
    · rw [hf] at hs
      have hgs : g.status = GateStatus.passed := by simpa using hs
      have hrl : lockGates egs name =
          (setGate egs name GateStatus.pending, none) := by
        simp [lockGates, hf, hgs]
      rw [hrl]
      refine ⟨rfl, ?_, fun o ho => gateStatus_setGate_other egs name o _ ho,
        setGate_names egs name _⟩
      rw [gateStatus_setGate_self]
      unfold gateStatus
      rw [hf]
      rfl

/-! ## Mutations: validate-then-commit, completion, distilling (spec §5)

The Rust command implementations are absent from the source tree; the
mutation model follows the spec: an edit is applied to the record set,
the whole result is re-validated, and only on success is the new state
persisted; a simulated write failure during the commit of a multi-entity
operation aborts with no side effects (all-or-nothing). -/

/-- Modelled from the spec: the errors a mutation can report (§7). -/
inductive TaskOpError
  | Gate (e : GateError)
  | CannotGateJot (id : String)
  | GatesPending (id : String)
  | TaskNotFound (id : String)
  | Invalid (e : GraphError)
  | JotRuleViolated (id : String)
  | NotAJot (id : String)
  | WriteFailed
deriving DecidableEq, Repr

/-- The §3 record invariant for jots: no gates, never complete. -/
def JotInvariant (ts : List Task) : Prop :=
  ∀ t ∈ ts, t.kind = TaskKind.jot → t.gates = [] ∧ t.complete = false

/-- The first record violating the jot invariant, if any. -/
def jotOffender (ts : List Task) : Option Task :=
  ts.find? fun t =>
    decide (t.kind = TaskKind.jot) && (! t.gates.isEmpty || t.complete)

/-- Modelled from the spec: full re-validation of an edited record set —
the §3 record invariants followed by `form_graph` (§5, §7). -/
def validateRecords (ts : List Task) : Option TaskOpError :=
  match jotOffender ts with
  | some t => some (.JotRuleViolated t.id)
  | none =>
    match form_graph ts with
    | .error e => some (.Invalid e)
    | .ok _ => none

/-- Modelled from the spec: validate-then-commit.  `failAt = some k`
simulates a write failure before the `k`-th record write of the commit;
any mid-commit failure aborts with no side effects, so the persisted
state is either the prior store or the fully written edit (§5). -/
def commitMutation (store edited : List Task) (failAt : Option Nat) :
    List Task × Option TaskOpError :=
  match validateRecords edited with
  | some e => (store, some e)
  | none =>
    match failAt with
    | some k =>
      if k < edited.length then (store, some .WriteFailed) else (edited, none)
    | none => (edited, none)

/-- Modelled from the spec: distilling a jot into several tasks — the jot
record is removed and the new records added, all-or-nothing, with full
re-validation before anything is persisted (§5, §8). -/
def distill (store : List Task) (jotId : String) (news : List Task)
    (failAt : Option Nat) : List Task × Option TaskOpError :=
  match findTask store jotId with
  | none => (store, some (.TaskNotFound jotId))
  | some j =>
    if j.kind ≠ TaskKind.jot then (store, some (.NotAJot jotId))
    else
      match validateRecords (store.filter (fun t => t.id != jotId) ++ news) with
      | some e => (store, some e)
      | none =>
        match failAt with
        | some k =>
          if k < news.length then (store, some .WriteFailed)
          else (store.filter (fun t => t.id != jotId) ++ news, none)
        | none => (store.filter (fun t => t.id != jotId) ++ news, none)

/-- Every gate of the record is passed. -/
def allGatesPassed (t : Task) : Bool :=
  t.gates.all fun g => decide (g.status = GateStatus.passed)

/-- Modelled from the spec: marking a task complete — fails with the
dedicated jot error on a jot, with `GatesPending` while a gate is
unpassed, and otherwise sets `complete` on the named record (§4.2, §7). -/
def completeTask (ts : List Task) (i : String) :
    Except TaskOpError (List Task) :=
  match findTask ts i with
  | none => .error (.TaskNotFound i)
  | some t =>
    if t.kind = TaskKind.jot then .error (.CannotGateJot i)
    else if ! allGatesPassed t then .error (.GatesPending i)
    else .ok (ts.map fun u => if u.id == i then { u with complete := true } else u)

/-- Modelled from the spec: unlocking a gate on a task — fails with the
dedicated jot error on a jot (jots carry no gate state), else applies
`unlockGates` to the record's gates (§4.2, §7). -/
def unlockTask (ts : List Task) (i name : String) :
    Except TaskOpError (List Task) :=
  match findTask ts i with
  | none => .error (.TaskNotFound i)
  | some t =>
    if t.kind = TaskKind.jot then .error (.CannotGateJot i)
    else
      match unlockGates t.gates name with
      | (gs2, none) =>
        .ok (ts.map fun u => if u.id == i then { u with gates := gs2 } else u)
      | (_, some e) => .error (.Gate e)

theorem jotOffender_none_iff {ts : List Task} :
    jotOffender ts = none ↔ JotInvariant ts := by
  rw [jotOffender, List.find?_eq_none]
  constructor
  · intro h t ht hk
    have h2 := h t ht
    simp [hk] at h2
    exact ⟨h2.1, h2.2⟩
  · intro h t ht
    by_cases hk : t.kind = TaskKind.jot
    · obtain ⟨hg, hc⟩ := h t ht hk
      simp [hk, hg, hc]
    · simp [hk]

theorem validateRecords_none_jot {ts : List Task}
    (h : validateRecords ts = none) : JotInvariant ts := by
  unfold validateRecords at h
  rcases ho : jotOffender ts with - | t
  · exact jotOffender_none_iff.mp ho
  · rw [ho] at h
    cases h

/-- C2: every mutation is atomic.  `commitMutation` persists the edited
records exactly when full re-validation succeeds and no write fails;
on any failure the prior store is returned unchanged.  `distill` is
all-or-nothing: its result is either the untouched prior store or the
fully rewritten set; in the scenario of distilling jot `J` into `X` and
`Y(after:[X])` with a simulated write failure between `X` and `Y`, the
store still holds `J` untouched and no dangling `X`. -/
theorem mutation_atomicity :
    (∀ (store edited : List Task) (failAt : Option Nat),
      ((commitMutation store edited failAt).2 = none →
        (commitMutation store edited failAt).1 = edited ∧
        validateRecords edited = none) ∧
      ((commitMutation store edited failAt).2 ≠ none →
        (commitMutation store edited failAt).1 = store) ∧
      (validateRecords edited ≠ none →
        (commitMutation store edited failAt).1 = store ∧
        (commitMutation store edited failAt).2 ≠ none)) ∧
    (∀ (store : List Task) (jotId : String) (news : List Task)
        (failAt : Option Nat),
      (distill store jotId news failAt).1 = store ∨
      ((distill store jotId news failAt).1 =
          store.filter (fun t => t.id != jotId) ++ news ∧
        (distill store jotId news failAt).2 = none)) ∧
    (distill [{ id := "J", kind := TaskKind.jot }] "J"
        [{ id := "X" }, { id := "Y", after := ["X"] }] (some 1) =
      ([{ id := "J", kind := TaskKind.jot }], some TaskOpError.WriteFailed)) ∧
    (findTask (distill [{ id := "J", kind := TaskKind.jot }] "J"
        [{ id := "X" }, { id := "Y", after := ["X"] }] (some 1)).1 "J" =
      some { id := "J", kind := TaskKind.jot }) ∧
    (hasId (distill [{ id := "J", kind := TaskKind.jot }] "J"
        [{ id := "X" }, { id := "Y", after := ["X"] }] (some 1)).1 "X" = false) := by
  refine ⟨fun store edited failAt => ?_, fun store jotId news failAt => ?_,
    by rfl, by rfl, by rfl⟩
  · rcases hv : validateRecords edited with - | e
    · rcases failAt with - | k
      · have hcm : commitMutation store edited none = (edited, none) := by
          simp only [commitMutation, hv]
        rw [hcm]
        exact ⟨fun _ => ⟨rfl, rfl⟩, fun h => absurd rfl h, fun h => absurd rfl h⟩
      · by_cases hk : k < edited.length
        · have hcm : commitMutation store edited (some k) =
              (store, some TaskOpError.WriteFailed) := by
            simp only [commitMutation, hv]
            rw [if_pos hk]
          rw [hcm]
          exact ⟨fun h => absurd h (by simp), fun _ => rfl,
            fun h => absurd rfl h⟩
        · have hcm : commitMutation store edited (some k) = (edited, none) := by
            simp only [commitMutation, hv]
            rw [if_neg hk]
          rw [hcm]
          exact ⟨fun _ => ⟨rfl, rfl⟩, fun h => absurd rfl h, fun h => absurd rfl h⟩
    · have hcm : commitMutation store edited failAt = (store, some e) := by
        simp only [commitMutation, hv]
      rw [hcm]
      exact ⟨fun h => absurd h (by simp), fun _ => rfl,
        fun _ => ⟨rfl, by simp⟩⟩
  · rcases hf : findTask store jotId with - | j
    · have hd : distill store jotId news failAt =
          (store, some (TaskOpError.TaskNotFound jotId)) := by
        simp only [distill, hf]
      rw [hd]
      exact Or.inl rfl
    · by_cases hj : j.kind ≠ TaskKind.jot
      · have hd : distill store jotId news failAt =
            (store, some (TaskOpError.NotAJot jotId)) := by
          simp only [distill, hf]
          rw [if_pos hj]
        rw [hd]
        exact Or.inl rfl
      · rcases hv : validateRecords (store.filter (fun t => t.id != jotId) ++ news)
          with - | e
        · rcases failAt with - | k
          · have hd : distill store jotId news none =
                (store.filter (fun t => t.id != jotId) ++ news, none) := by
              simp only [distill, hf, hv]
              rw [if_neg hj]
            rw [hd]
            exact Or.inr ⟨rfl, rfl⟩
          · by_cases hk : k < news.length
            · have hd : distill store jotId news (some k) =
                  (store, some TaskOpError.WriteFailed) := by
                simp only [distill, hf, hv]
                rw [if_neg hj, if_pos hk]
              rw [hd]
              exact Or.inl rfl
            · have hd : distill store jotId news (some k) =
                  (store.filter (fun t => t.id != jotId) ++ news, none) := by
                simp only [distill, hf, hv]
                rw [if_neg hj, if_neg hk]
              rw [hd]
              exact Or.inr ⟨rfl, rfl⟩
        · have hd : distill store jotId news failAt = (store, some e) := by
            simp only [distill, hf, hv]
            rw [if_neg hj]
          rw [hd]
          exact Or.inl rfl

/-- With pairwise-distinct ids, lookup by a member's id finds that
member. -/
theorem findTask_eq_of_nodup : ∀ {ts : List Task} {u : Task},
    (taskIds ts).Nodup → u ∈ ts → findTask ts u.id = some u := by
  intro ts
  induction ts with
  | nil => intro u _ hu; cases hu
  | cons t rest ih =>
    intro u hnd hu
    have hnd2 := hnd
    rw [taskIds, List.map_cons, List.nodup_cons] at hnd2
    rcases List.mem_cons.mp hu with rfl | hu2
    · unfold findTask
      rw [List.find?]
      simp
    · unfold findTask
      rw [List.find?]
      have hne : (t.id == u.id) = false := by
        simp only [beq_eq_false_iff_ne, ne_eq]
        intro he
        exact hnd2.1 (he ▸ List.mem_map_of_mem (fun t => t.id) hu2)
      rw [hne]
      exact ih hnd2.2 hu2

/-- C8: a committed mutation result satisfies the jot invariant (no
gates, never complete); completing or unlocking preserves the invariant;
and attempting to complete or to unlock a gate on a jot fails with the
dedicated error, leaving the records untouched. -/
theorem jot_invariant_spec :
    (∀ (store edited : List Task) (failAt : Option Nat),
      (commitMutation store edited failAt).2 = none →
      JotInvariant (commitMutation store edited failAt).1) ∧
    (∀ (ts : List Task) (i : String), (taskIds ts).Nodup → JotInvariant ts →
      ∀ ts2, completeTask ts i = Except.ok ts2 → JotInvariant ts2) ∧
    (∀ (ts : List Task) (i name : String), (taskIds ts).Nodup →
      JotInvariant ts →
      ∀ ts2, unlockTask ts i name = Except.ok ts2 → JotInvariant ts2) ∧
    (∀ (ts : List Task) (i : String) (t : Task), findTask ts i = some t →
      t.kind = TaskKind.jot →
      completeTask ts i = Except.error (TaskOpError.CannotGateJot i) ∧
      ∀ name, unlockTask ts i name =
        Except.error (TaskOpError.CannotGateJot i)) := by
  refine ⟨fun store edited failAt h => ?_, fun ts i hnd hJ ts2 hok => ?_,
    fun ts i name hnd hJ ts2 hok => ?_, fun ts i t hf hk => ?_⟩
  · rcases hv : validateRecords edited with - | e
    · have hJ := validateRecords_none_jot hv
      rcases failAt with - | k
      · have hcm : commitMutation store edited none = (edited, none) := by
          simp only [commitMutation, hv]
        rw [hcm]
        exact hJ
      · by_cases hk : k < edited.length
        · have hcm : commitMutation store edited (some k) =
              (store, some TaskOpError.WriteFailed) := by
            simp only [commitMutation, hv]
            rw [if_pos hk]
          rw [hcm] at h
          simp at h
        · have hcm : commitMutation store edited (some k) = (edited, none) := by
            simp only [commitMutation, hv]
            rw [if_neg hk]
          rw [hcm]
          exact hJ
    · have hcm : commitMutation store edited failAt = (store, some e) := by
        simp only [commitMutation, hv]
      rw [hcm] at h
      simp at h
  · rcases hf : findTask ts i with - | t
    · simp only [completeTask, hf] at hok
      cases hok
    · simp only [completeTask, hf] at hok
      by_cases hjot : t.kind = TaskKind.jot
      · rw [if_pos hjot] at hok; cases hok
      · rw [if_neg hjot] at hok
        by_cases hgp : (! allGatesPassed t) = true
        · rw [if_pos hgp] at hok; cases hok
        · rw [if_neg hgp] at hok
          have hts2 := (Except.ok.inj hok).symm
          subst hts2
          intro u2 hu2 hk2
          obtain ⟨u, hu, hfu⟩ := List.mem_map.mp hu2
          by_cases hid : (u.id == i) = true
          · rw [if_pos hid] at hfu
            have : findTask ts i = some u := by
              have := findTask_eq_of_nodup hnd hu
              rwa [show u.id = i by simpa using hid] at this
            rw [hf] at this
            have hut : u = t := (Option.some.inj this).symm
            subst hut
            rw [← hfu] at hk2
            exact absurd hk2 hjot
          · rw [if_neg (by simpa using hid)] at hfu
            subst hfu
            exact hJ u hu hk2
  · rcases hf : findTask ts i with - | t
    · simp only [unlockTask, hf] at hok
      cases hok
    · simp only [unlockTask, hf] at hok
      by_cases hjot : t.kind = TaskKind.jot
      · rw [if_pos hjot] at hok; cases hok
      · rw [if_neg hjot] at hok
        rcases hug : unlockGates t.gates name with ⟨gs2, e⟩
        rw [hug] at hok
        rcases e with - | e
        · simp only [] at hok
          have hts2 := (Except.ok.inj hok).symm
          subst hts2
          intro u2 hu2 hk2
          obtain ⟨u, hu, hfu⟩ := List.mem_map.mp hu2
          by_cases hid : (u.id == i) = true
          · rw [if_pos hid] at hfu
            have : findTask ts i = some u := by
              have := findTask_eq_of_nodup hnd hu
              rwa [show u.id = i by simpa using hid] at this
            rw [hf] at this
            have hut : u = t := (Option.some.inj this).symm
            subst hut
            rw [← hfu] at hk2
            exact absurd hk2 hjot
          · rw [if_neg (by simpa using hid)] at hfu
            subst hfu
            exact hJ u hu hk2
        · cases hok
  · constructor
    · simp only [completeTask, hf]
      rw [if_pos hk]
    · intro name
      simp only [unlockTask, hf]
      rw [if_pos hk]


/-! ## Priority Propagator (spec §4.4)

The Rust implementation is absent from the source tree; the propagator is
modelled from the spec: effective priority is computed in one pass over a
reverse-topological ordering of the graph (dependents processed before
their dependencies), memoized, and satisfies
`effective_priority(t) = max(own, max over dependents of their effective
priority)`. -/

/-- The tasks that list `i` in their `after` field (the dependents of the
task with id `i`). -/
def dependentsOf (ts : List Task) (i : String) : List Task :=
  ts.filter fun u => decide (i ∈ u.after)

/-- Memo lookup for the one-pass computation. -/
def lookupP (memo : List (String × Int)) (i : String) : Option Int :=
  (memo.find? fun e => e.1 == i).map fun e => e.2

/-- One memoized evaluation: the maximum of the task's own priority and
the memoized effective priorities of its dependents. -/
def effStep (ts : List Task) (memo : List (String × Int)) (t : Task) : Int :=
  (dependentsOf ts t.id).foldl
    (fun acc u => max acc ((lookupP memo u.id).getD u.priority)) t.priority

/-- The single pass over the processing order, extending the memo. -/
def effPass (ts : List Task) : List Task → List (String × Int) → List (String × Int)
  | [], memo => memo
  | t :: rest, memo => effPass ts rest ((t.id, effStep ts memo t) :: memo)

/-- Modelled from the spec: `effective_priority` over a graph `ts` with
processing order `ord` (a reverse-topological ordering, dependents
first), memoized in one pass (§4.4). -/
def effective_priority (ts ord : List Task) (t : Task) : Int :=
  (lookupP (effPass ts ord []) t.id).getD t.priority

/-- `ord` is a valid processing order for `ts`: the same records with
pairwise-distinct ids, no task preceding one of its dependents, and no
self-dependency. -/
def ValidOrd (ts ord : List Task) : Prop :=
  (∀ t ∈ ord, t ∈ ts) ∧ (∀ t ∈ ts, t ∈ ord) ∧
  (taskIds ord).Nodup ∧ (taskIds ts).Nodup ∧
  ord.Pairwise (fun a b => a.id ∉ b.after) ∧
  ∀ t ∈ ord, t.id ∉ t.after

instance (ts ord : List Task) : Decidable (ValidOrd ts ord) := by
  unfold ValidOrd
  infer_instance

theorem lookupP_cons (a : String) (v : Int) (m : List (String × Int))
    (i : String) :
    lookupP ((a, v) :: m) i = if a == i then some v else lookupP m i := by
  unfold lookupP
  cases h : a == i <;> simp [List.find?, h]

theorem foldl_max_congr {l : List Task} {g1 g2 : Task → Int}
    (h : ∀ u ∈ l, g1 u = g2 u) :
    ∀ init : Int, l.foldl (fun acc u => max acc (g1 u)) init =
      l.foldl (fun acc u => max acc (g2 u)) init := by
  induction l with
  | nil => intro init; rfl
  | cons a l ih =>
    intro init
    rw [List.foldl_cons, List.foldl_cons,
      h a (List.mem_cons_self a l)]
    exact ih (fun u hu => h u (List.mem_cons_of_mem a hu)) _

theorem foldl_max_le (l : List Task) (g : Task → Int) :
    ∀ init : Int, init ≤ l.foldl (fun acc u => max acc (g u)) init := by
  induction l with
  | nil => intro init; exact le_rfl
  | cons a l ih =>
    intro init
    rw [List.foldl_cons]
    exact le_trans (le_max_left init (g a)) (ih (max init (g a)))

theorem effStep_congr {ts : List Task} {t : Task}
    {m1 m2 : List (String × Int)}
    (h : ∀ u ∈ dependentsOf ts t.id, lookupP m1 u.id = lookupP m2 u.id) :
    effStep ts m1 t = effStep ts m2 t := by
  unfold effStep
  exact foldl_max_congr (fun u hu => by rw [h u hu]) t.priority

/-- The one-pass invariant: processing leaves already-settled memo entries
unchanged, and every processed task's memo entry satisfies the fixpoint
equation against the final memo. -/
theorem effPass_spec (ts : List Task) :
    ∀ (rest : List Task) (memo : List (String × Int)),
      (taskIds rest).Nodup →
      (∀ t ∈ rest, lookupP memo t.id = none) →
      rest.Pairwise (fun a b => a.id ∉ b.after) →
      (∀ t ∈ rest, t.id ∉ t.after) →
      (∀ t ∈ rest, ∀ u ∈ dependentsOf ts t.id,
        u ∈ rest ∨ lookupP memo u.id ≠ none) →
      (∀ i, (∀ t ∈ rest, t.id ≠ i) →
        lookupP (effPass ts rest memo) i = lookupP memo i) ∧
      (∀ t ∈ rest, lookupP (effPass ts rest memo) t.id =
        some (effStep ts (effPass ts rest memo) t)) := by
  intro rest
  induction rest with
  | nil =>
    intro memo _ _ _ _ _
    exact ⟨fun i _ => rfl, fun t ht => absurd ht (List.not_mem_nil t)⟩
  | cons t rest ih =>
    intro memo hnodup hfresh hpair hself hcover
    have hndt : t.id ∉ taskIds rest := by
      rw [taskIds, List.map_cons, List.nodup_cons] at hnodup
      exact hnodup.1
    have hnd2 : (taskIds rest).Nodup := by
      rw [taskIds, List.map_cons, List.nodup_cons] at hnodup
      exact hnodup.2
    have hpairhead : ∀ b ∈ rest, t.id ∉ b.after :=
      (List.pairwise_cons.mp hpair).1
    have hpairtail : rest.Pairwise fun a b => a.id ∉ b.after :=
      (List.pairwise_cons.mp hpair).2
    have hfresh2 : ∀ s ∈ rest, lookupP ((t.id, effStep ts memo t) :: memo) s.id = none := by
      intro s hs
      rw [lookupP_cons]
      have hne : (t.id == s.id) = false := by
        simp only [beq_eq_false_iff_ne, ne_eq]
        intro he
        exact hndt (he ▸ List.mem_map_of_mem (fun u => u.id) hs)
      rw [hne]
      simp only [Bool.false_eq_true, if_false]
      exact hfresh s (List.mem_cons_of_mem t hs)
    have hcover2 : ∀ s ∈ rest, ∀ u ∈ dependentsOf ts s.id,
        u ∈ rest ∨ lookupP ((t.id, effStep ts memo t) :: memo) u.id ≠ none := by
      intro s hs u hu
      rcases hcover s (List.mem_cons_of_mem t hs) u hu with hur | hum
      · rcases List.mem_cons.mp hur with rfl | hur2
        · right
          rw [lookupP_cons]
          simp
        · exact Or.inl hur2
      · right
        rw [lookupP_cons]
        cases he : t.id == u.id
        · simpa using hum
        · simp
    obtain ⟨stab, fix⟩ := ih ((t.id, effStep ts memo t) :: memo) hnd2 hfresh2
      hpairtail (fun s hs => hself s (List.mem_cons_of_mem t hs)) hcover2
    have heq : effPass ts (t :: rest) memo =
        effPass ts rest ((t.id, effStep ts memo t) :: memo) := rfl
    have hdepmemo : ∀ u ∈ dependentsOf ts t.id,
        lookupP memo u.id ≠ none := by
      intro u hu
      rcases hcover t (List.mem_cons_self t rest) u hu with hur | hum
      · exfalso
        have hafter : t.id ∈ u.after := by
          have := (List.mem_filter.mp hu).2
          simpa using this
        rcases List.mem_cons.mp hur with hut | hur2
        · rw [hut] at hafter
          exact hself t (List.mem_cons_self t rest) hafter
        · exact hpairhead u hur2 hafter
      · exact hum
    have hstabdep : ∀ u ∈ dependentsOf ts t.id,
        lookupP (effPass ts (t :: rest) memo) u.id = lookupP memo u.id := by
      intro u hu
      have hum := hdepmemo u hu
      have htid : (t.id == u.id) = false := by
        simp only [beq_eq_false_iff_ne, ne_eq]
        intro he
        rw [← he] at hum
        exact hum (hfresh t (List.mem_cons_self t rest))
      have hns : ∀ s ∈ rest, s.id ≠ u.id := by
        intro s hs he
        have h0 := hfresh s (List.mem_cons_of_mem t hs)
        rw [he] at h0
        exact hum h0
      rw [heq, stab u.id hns, lookupP_cons, htid]
      simp
    have hstabt : lookupP (effPass ts (t :: rest) memo) t.id =
        some (effStep ts memo t) := by
      have hts2 : ∀ s ∈ rest, s.id ≠ t.id := by
        intro s hs he
        exact hndt (he ▸ List.mem_map_of_mem (fun u => u.id) hs)
      rw [heq, stab t.id hts2, lookupP_cons]
      simp
    constructor
    · intro i hni
      have hti : t.id ≠ i := hni t (List.mem_cons_self t rest)
      rw [heq, stab i (fun s hs => hni s (List.mem_cons_of_mem t hs)),
        lookupP_cons]
      have : (t.id == i) = false := by
        simp only [beq_eq_false_iff_ne, ne_eq]
        exact hti
      rw [this]
      simp
    · intro s hs
      rcases List.mem_cons.mp hs with rfl | hs2
      · rw [hstabt]
        have : effStep ts memo s = effStep ts (effPass ts (s :: rest) memo) s :=
          effStep_congr fun u hu => (hstabdep u hu).symm
        rw [← this]
      · exact fix s hs2

/-- C6: over a validated graph with a reverse-topological processing
order, the effective priority of every task equals the maximum of its own
priority and the effective priorities of its dependents, and is therefore
at least its own priority. -/
theorem effective_priority_spec (ts ord : List Task) (h : ValidOrd ts ord) :
    ∀ t ∈ ts,
      effective_priority ts ord t =
        (dependentsOf ts t.id).foldl
          (fun acc u => max acc (effective_priority ts ord u)) t.priority ∧
      t.priority ≤ effective_priority ts ord t := by
  obtain ⟨hos, hso, hordnd, -, hpair, hself⟩ := h
  obtain ⟨stab, fix⟩ := effPass_spec ts ord []
    hordnd (fun t _ => rfl) hpair hself
    (fun t _ u hu => Or.inl (hso u (List.mem_filter.mp hu).1))
  intro t ht
  have htord : t ∈ ord := hso t ht
  have hfix := fix t htord
  have hefft : effective_priority ts ord t =
      effStep ts (effPass ts ord []) t := by
    unfold effective_priority
    rw [hfix]
    rfl
  have hdep : ∀ u ∈ dependentsOf ts t.id,
      (lookupP (effPass ts ord []) u.id).getD u.priority =
        effective_priority ts ord u := by
    intro u hu
    have huts : u ∈ ts := (List.mem_filter.mp hu).1
    have hufix := fix u (hso u huts)
    unfold effective_priority
    rw [hufix]
  constructor
  · rw [hefft]
    unfold effStep
    exact foldl_max_congr hdep t.priority
  · rw [hefft]
    unfold effStep
    exact foldl_max_le _ _ t.priority

/-- Witness graph for the priority propagator: `wB` depends on `wA` and
carries the higher priority. -/
def wA : Task := { id := "wa", priority := 1 }

/-- Witness dependent task. -/
def wB : Task := { id := "wb", after := ["wa"], priority := 5 }

/-- Witness for C6 at a concrete graph: instantiating the fixpoint
equation and the lower bound for `wA` in the two-task graph. -/
theorem effective_priority_spec_witness :
    effective_priority [wA, wB] [wB, wA] wA =
      (dependentsOf [wA, wB] wA.id).foldl
        (fun acc u => max acc (effective_priority [wA, wB] [wB, wA] u))
        wA.priority ∧
    wA.priority ≤ effective_priority [wA, wB] [wB, wA] wA :=
  effective_priority_spec [wA, wB] [wB, wA] (by decide) wA (by decide)



/-! ## Display pipeline: transitive reduction (spec §4.5 step 4)

The Rust implementation is absent from the source tree; the reduction is
modelled from the spec: a direct edge `(a, c)` is dropped exactly when an
alternate multi-hop path from `a` to `c` already exists in the graph. -/

/-- The direct `after` edges of the graph, one per declared dependency. -/
def graphEdges (ts : List Task) : List (String × String) :=
  ts.flatMap fun t => t.after.map fun d => (t.id, d)

/-- An alternate path from `a` to `c` of length at least two: a first
edge to some `b`, then at least one more edge from `b` to `c`. -/
def AltPath (ts : List Task) (a c : String) : Prop :=
  ∃ b ∈ adjOf ts a, Reaches (adjOf ts) b c

/-- Decidable alternate-path test, with fuel one more than the node
count. -/
def altPathB (ts : List Task) (a c : String) : Bool :=
  (adjOf ts a).any fun b => reachB (adjOf ts) ((taskIds ts).length + 1) b c

/-- Modelled from the spec: transitive reduction — keep exactly the
direct edges with no alternate multi-hop path (§4.5). -/
def transitiveReduction (ts : List Task) : List (String × String) :=
  (graphEdges ts).filter fun e => ! altPathB ts e.1 e.2

theorem altPathB_iff {ts : List Task}
    (hres : ∀ t ∈ ts, ∀ p ∈ t.after, hasId ts p = true) (a c : String) :
    altPathB ts a c = true ↔ AltPath ts a c := by
  unfold altPathB AltPath
  rw [List.any_eq_true]
  constructor
  · rintro ⟨b, hb, hr⟩
    exact ⟨b, hb, reachB_sound hr⟩
  · rintro ⟨b, hb, hr⟩
    exact ⟨b, hb, (reaches_iff_reachB (adjOf_closed hres) b c).mp hr⟩

/-- C7: after transitive reduction, an edge `(a, c)` remains exactly when
it is a direct edge of the graph and no alternate path from `a` to `c`
of length at least two exists — redundant direct edges are all removed,
and only those. -/
theorem transitive_reduction_spec (ts : List Task)
    (hres : ∀ t ∈ ts, ∀ p ∈ t.after, hasId ts p = true) :
    ∀ a c, ((a, c) ∈ transitiveReduction ts ↔
      ((a, c) ∈ graphEdges ts ∧ ¬ AltPath ts a c)) := by
  intro a c
  rw [transitiveReduction, List.mem_filter]
  have hiff := altPathB_iff hres a c
  constructor
  · rintro ⟨h1, h2⟩
    refine ⟨h1, fun hap => ?_⟩
    rw [hiff.mpr hap] at h2
    cases h2
  · rintro ⟨h1, h2⟩
    refine ⟨h1, ?_⟩
    cases hb : altPathB ts a c
    · rfl
    · exact absurd (hiff.mp hb) h2

/-- Witness graph for transitive reduction: a diamond-free triangle where
the direct edge from `a` to `c` is implied by `a → b → c`. -/
def triGraph : List Task :=
  [{ id := "a", after := ["b", "c"] }, { id := "b", after := ["c"] },
   { id := "c" }]

/-- Witness for C7 at the concrete triangle graph, instantiating the
characterization at the redundant edge. -/
theorem transitive_reduction_spec_witness :
    ("a", "c") ∈ transitiveReduction triGraph ↔
      (("a", "c") ∈ graphEdges triGraph ∧ ¬ AltPath triGraph "a" "c") :=
  transitive_reduction_spec triGraph (by decide) "a" "c"



/-! ## The mont extension (translated from src/extensions/index.ts)

The definitions below are translated from the TypeScript extension.
String primitives (prefix test, substring search) are implemented over
character lists so that every definition evaluates inside the kernel. -/

/-- Character-list prefix test (the semantics of the TypeScript
`String.prototype.startsWith`). -/
def isPre : List Char → List Char → Bool
  | [], _ => true
  | _ :: _, [] => false
  | c :: cs, d :: ds => c == d && isPre cs ds

/-- Executable string prefix test: `strStarts s pre` is true when `pre`
is a prefix of `s`. -/
def strStarts (s pre2 : String) : Bool := isPre pre2.data s.data

/-- Executable substring test over character lists. -/
def containsSeq : List Char → List Char → Bool
  | [], needle => needle.isEmpty
  | h :: t, needle => isPre needle (h :: t) || containsSeq t needle

/-- JS truthiness of an optional string input: an absent field and the
empty string are falsy. -/
def truthy : Option String → Bool
  | none => false
  | some s => ! (s == "")

/-- A `tool_call` event as the extension handler reads it: the tool name
and the string-valued inputs `path` and `command` (absent when the tool
call carries none). -/
structure ToolCallEvent where
  toolName : String
  path : Option String := none
  command : Option String := none
deriving DecidableEq, Repr

/-- A blocking hook decision with its user-facing reason. -/
structure BlockDecision where
  reason : String
deriving DecidableEq, Repr

/-- Conservative model of the bash write-pattern regex of
src/extensions/index.ts line 120 (a write command word together with
`.tasks` in one command); the write/edit claims never reach this
branch. -/
def bashWritePattern (command : String) : Bool :=
  (["rm", "mv", "cp", "touch", "mkdir", "rmdir", "tee", "echo", "cat"].any
    fun w => containsSeq command.data w.data) &&
  containsSeq command.data ".tasks".data

/-- Translated from src/extensions/index.ts lines 106-127: the
`tool_call` hook — block `write`/`edit` calls whose path is `.tasks` or
starts with `.tasks/` or `.tasks\\`, and bash commands matching the
write pattern. -/
def montToolCallHandler (e : ToolCallEvent) : Option BlockDecision :=
  if e.toolName == "write" || e.toolName == "edit" then
    match e.path with
    | some p =>
      if truthy (some p) &&
          (strStarts p ".tasks/" || strStarts p ".tasks\\" || p == ".tasks") then
        some { reason :=
          "Writing to .tasks/ is not allowed. Use mont commands to manage tasks." }
      else none
    | none => none
  else if e.toolName == "bash" then
    match e.command with
    | some cmd =>
      if truthy (some cmd) && bashWritePattern cmd then
        some { reason :=
          "Modifying .tasks/ via bash is not allowed. Use mont commands to manage tasks." }
      else none
    | none => none
  else none

/-- C9: a `write` or `edit` tool call whose path is `.tasks`, or starts
with `.tasks/` or `.tasks\\`, is always blocked by the extension
handler. -/
theorem tasks_dir_writes_blocked (tool p : String) (cmd : Option String)
    (htool : tool = "write" ∨ tool = "edit")
    (hpath : p = ".tasks" ∨ strStarts p ".tasks/" = true ∨
      strStarts p ".tasks\\" = true) :
    montToolCallHandler { toolName := tool, path := some p, command := cmd } =
      some { reason :=
        "Writing to .tasks/ is not allowed. Use mont commands to manage tasks." } := by
  have hne : (p == "") = false := by
    rcases hpath with rfl | h | h
    · decide
    · cases he : p == ""
      · rfl
      · have : p = "" := by simpa using he
        rw [this] at h
        exact absurd h (by decide)
    · cases he : p == ""
      · rfl
      · have : p = "" := by simpa using he
        rw [this] at h
        exact absurd h (by decide)
  have hcond : (truthy (some p) &&
      (strStarts p ".tasks/" || strStarts p ".tasks\\" || p == ".tasks")) = true := by
    rw [Bool.and_eq_true]
    constructor
    · simp [truthy, hne]
    · rcases hpath with rfl | h | h
      · simp
      · rw [h]
        rfl
      · rw [h]
        simp
  have hname : (tool == "write" || tool == "edit") = true := by
    rcases htool with rfl | rfl <;> rfl
  unfold montToolCallHandler
  rw [hname]
  simp only [if_true]
  rw [hcond]
  rfl

/-- Witness for C9: a concrete write into the tasks directory is
blocked. -/
theorem tasks_dir_writes_blocked_witness :
    montToolCallHandler
        { toolName := "write", path := some ".tasks/plan.md" } =
      some { reason :=
        "Writing to .tasks/ is not allowed. Use mont commands to manage tasks." } :=
  tasks_dir_writes_blocked "write" ".tasks/plan.md" none (Or.inl rfl)
    (Or.inr (Or.inl (by decide)))



/-- The outcome of the mont tool's `execute` dispatch: an error result
naming a missing parameter, a mont process invocation with its argument
list (and stdin content when piped), or the unknown-action result. -/
inductive ExecOutcome
  | err (missing : String)
  | run (args : List String) (stdin : Option String)
  | unknown (action : String)
deriving DecidableEq, Repr

/-- The optional string parameters of a mont tool call. -/
structure MontParams where
  id : Option String := none
  title : Option String := none
  content : Option String := none
  patch : Option String := none
  text : Option String := none
  gate : Option String := none
deriving DecidableEq, Repr

/-- Translated from src/extensions/index.ts lines 406-568: the switch of
the mont tool's `execute` — each action checks its required parameters
(JS truthiness) before any mont process is run. -/
def executeDispatch (action : String) (p : MontParams) : ExecOutcome :=
  if action == "status" then .run ["status"] none
  else if action == "show" then
    if ! truthy p.id then .err "id"
    else .run ["show", p.id.getD ""] none
  else if action == "list" then .run ["list"] none
  else if action == "ready" then .run ["ready"] none
  else if action == "prompt" then .run ["prompt"] none
  else if action == "jot" then
    if ! truthy p.title then .err "title"
    else .run ["jot", "-q", p.title.getD ""] none
  else if action == "create" then
    if ! truthy p.content then .err "content"
    else .run ["task", "--stdin"] p.content
  else if action == "edit" then
    if ! truthy p.id then .err "id"
    else if ! truthy p.content then .err "content"
    else .run ["task", p.id.getD "", "--stdin"] p.content
  else if action == "patch" then
    if ! truthy p.id then .err "id"
    else if ! truthy p.patch then .err "patch"
    else .run ["task", p.id.getD "", "--patch", p.patch.getD ""] none
  else if action == "append" then
    if ! truthy p.id then .err "id"
    else if ! truthy p.text then .err "text"
    else .run ["task", p.id.getD "", "--append", p.text.getD ""] none
  else if action == "unlock" then
    if ! truthy p.id then .err "id"
    else if ! truthy p.gate then .err "gate"
    else .run ["unlock", p.id.getD "", "--passed", p.gate.getD ""] none
  else if action == "distill" then
    if ! truthy p.id then .err "id"
    else if ! truthy p.content then .err "content"
    else .run ["distill", p.id.getD "", "--stdin"] p.content
  else if action == "stop" then
    if truthy p.id then .run ["stop", p.id.getD ""] none
    else .run ["stop"] none
  else if action == "delete" then
    if ! truthy p.id then .err "id"
    else .run ["delete", p.id.getD "", "--force"] none
  else .unknown action

/-- The required parameters of each parameterised action are present. -/
def requiredOk (action : String) (p : MontParams) : Bool :=
  if action == "show" then truthy p.id
  else if action == "edit" then truthy p.id && truthy p.content
  else if action == "patch" then truthy p.id && truthy p.patch
  else if action == "append" then truthy p.id && truthy p.text
  else if action == "unlock" then truthy p.id && truthy p.gate
  else if action == "distill" then truthy p.id && truthy p.content
  else true

/-- The parameter field a name designates. -/
def paramNamed (p : MontParams) : String → Option String
  | "id" => p.id
  | "title" => p.title
  | "content" => p.content
  | "patch" => p.patch
  | "text" => p.text
  | "gate" => p.gate
  | _ => none

/-- C10: for every parameterised action (`show`, `edit`, `patch`,
`append`, `unlock`, `distill`), the dispatch runs a mont process exactly
when every required parameter is present, and a missing required
parameter yields an error result naming a parameter that is indeed
required and absent — no process is run. -/
theorem execute_requires_params (action : String) (p : MontParams)
    (ha : action ∈ ["show", "edit", "patch", "append", "unlock", "distill"]) :
    ((∃ args stdin, executeDispatch action p = ExecOutcome.run args stdin) ↔
      requiredOk action p = true) ∧
    (requiredOk action p = false →
      ∃ m, executeDispatch action p = ExecOutcome.err m ∧
        truthy (paramNamed p m) = false ∧
        (m = "id" ∨ m = "content" ∨ m = "patch" ∨ m = "text" ∨ m = "gate")) := by
  have hnt : ¬ ((! true) = true) := by decide
  simp only [List.mem_cons, List.mem_singleton, List.not_mem_nil, or_false] at ha
  rcases ha with rfl | rfl | rfl | rfl | rfl | rfl
  · have he : executeDispatch "show" p =
        (if ! truthy p.id then ExecOutcome.err "id"
         else ExecOutcome.run ["show", p.id.getD ""] none) := rfl
    have hr : requiredOk "show" p = truthy p.id := rfl
    rw [he, hr]
    cases hid : truthy p.id
    · rw [if_pos (show (! false) = true from rfl)]
      refine ⟨⟨fun h => ?_, fun h => absurd h (by decide)⟩, fun _ => ?_⟩
      · obtain ⟨args, stdin, h⟩ := h
        exact ExecOutcome.noConfusion h
      · exact ⟨"id", rfl, hid, Or.inl rfl⟩
    · rw [if_neg hnt]
      exact ⟨⟨fun _ => rfl, fun _ => ⟨_, _, rfl⟩⟩,
        fun h => absurd h (by decide)⟩
  · have he : executeDispatch "edit" p =
        (if ! truthy p.id then ExecOutcome.err "id"
         else if ! truthy p.content then ExecOutcome.err "content"
         else ExecOutcome.run ["task", p.id.getD "", "--stdin"] p.content) := rfl
    have hr : requiredOk "edit" p = (truthy p.id && truthy p.content) := rfl
    rw [he, hr]
    cases hid : truthy p.id
    · rw [if_pos (show (! false) = true from rfl)]
      refine ⟨⟨fun h => ?_, fun h => absurd h (by simp)⟩, fun _ => ?_⟩
      · obtain ⟨args, stdin, h⟩ := h
        exact ExecOutcome.noConfusion h
      · exact ⟨"id", rfl, hid, Or.inl rfl⟩
    · rw [if_neg hnt]
      cases hc : truthy p.content
      · rw [if_pos (show (! false) = true from rfl)]
        refine ⟨⟨fun h => ?_, fun h => absurd h (by decide)⟩, fun _ => ?_⟩
        · obtain ⟨args, stdin, h⟩ := h
          exact ExecOutcome.noConfusion h
        · exact ⟨"content", rfl, hc, Or.inr (Or.inl rfl)⟩
      · rw [if_neg hnt]
        exact ⟨⟨fun _ => rfl, fun _ => ⟨_, _, rfl⟩⟩,
          fun h => absurd h (by decide)⟩
  · have he : executeDispatch "patch" p =
        (if ! truthy p.id then ExecOutcome.err "id"
         else if ! truthy p.patch then ExecOutcome.err "patch"
         else ExecOutcome.run ["task", p.id.getD "", "--patch", p.patch.getD ""]
           none) := rfl
    have hr : requiredOk "patch" p = (truthy p.id && truthy p.patch) := rfl
    rw [he, hr]
    cases hid : truthy p.id
    · rw [if_pos (show (! false) = true from rfl)]
      refine ⟨⟨fun h => ?_, fun h => absurd h (by simp)⟩, fun _ => ?_⟩
      · obtain ⟨args, stdin, h⟩ := h
        exact ExecOutcome.noConfusion h
      · exact ⟨"id", rfl, hid, Or.inl rfl⟩
    · rw [if_neg hnt]
      cases hc : truthy p.patch
      · rw [if_pos (show (! false) = true from rfl)]
        refine ⟨⟨fun h => ?_, fun h => absurd h (by decide)⟩, fun _ => ?_⟩
        · obtain ⟨args, stdin, h⟩ := h
          exact ExecOutcome.noConfusion h
        · exact ⟨"patch", rfl, hc, Or.inr (Or.inr (Or.inl rfl))⟩
      · rw [if_neg hnt]
        exact ⟨⟨fun _ => rfl, fun _ => ⟨_, _, rfl⟩⟩,
          fun h => absurd h (by decide)⟩
  · have he : executeDispatch "append" p =
        (if ! truthy p.id then ExecOutcome.err "id"
         else if ! truthy p.text then ExecOutcome.err "text"
         else ExecOutcome.run ["task", p.id.getD "", "--append", p.text.getD ""]
           none) := rfl
    have hr : requiredOk "append" p = (truthy p.id && truthy p.text) := rfl
    rw [he, hr]
    cases hid : truthy p.id
    · rw [if_pos (show (! false) = true from rfl)]
      refine ⟨⟨fun h => ?_, fun h => absurd h (by simp)⟩, fun _ => ?_⟩
      · obtain ⟨args, stdin, h⟩ := h
        exact ExecOutcome.noConfusion h
      · exact ⟨"id", rfl, hid, Or.inl rfl⟩
    · rw [if_neg hnt]
      cases hc : truthy p.text
      · rw [if_pos (show (! false) = true from rfl)]
        refine ⟨⟨fun h => ?_, fun h => absurd h (by decide)⟩, fun _ => ?_⟩
        · obtain ⟨args, stdin, h⟩ := h
          exact ExecOutcome.noConfusion h
        · exact ⟨"text", rfl, hc, Or.inr (Or.inr (Or.inr (Or.inl rfl)))⟩
      · rw [if_neg hnt]
        exact ⟨⟨fun _ => rfl, fun _ => ⟨_, _, rfl⟩⟩,
          fun h => absurd h (by decide)⟩
  · have he : executeDispatch "unlock" p =
        (if ! truthy p.id then ExecOutcome.err "id"
         else if ! truthy p.gate then ExecOutcome.err "gate"
         else ExecOutcome.run ["unlock", p.id.getD "", "--passed", p.gate.getD ""]
           none) := rfl
    have hr : requiredOk "unlock" p = (truthy p.id && truthy p.gate) := rfl
    rw [he, hr]
    cases hid : truthy p.id
    · rw [if_pos (show (! false) = true from rfl)]
      refine ⟨⟨fun h => ?_, fun h => absurd h (by simp)⟩, fun _ => ?_⟩
      · obtain ⟨args, stdin, h⟩ := h
        exact ExecOutcome.noConfusion h
      · exact ⟨"id", rfl, hid, Or.inl rfl⟩
    · rw [if_neg hnt]
      cases hc : truthy p.gate
      · rw [if_pos (show (! false) = true from rfl)]
        refine ⟨⟨fun h => ?_, fun h => absurd h (by decide)⟩, fun _ => ?_⟩
        · obtain ⟨args, stdin, h⟩ := h
          exact ExecOutcome.noConfusion h
        · exact ⟨"gate", rfl, hc, Or.inr (Or.inr (Or.inr (Or.inr rfl)))⟩
      · rw [if_neg hnt]
        exact ⟨⟨fun _ => rfl, fun _ => ⟨_, _, rfl⟩⟩,
          fun h => absurd h (by decide)⟩
  · have he : executeDispatch "distill" p =
        (if ! truthy p.id then ExecOutcome.err "id"
         else if ! truthy p.content then ExecOutcome.err "content"
         else ExecOutcome.run ["distill", p.id.getD "", "--stdin"] p.content) := rfl
    have hr : requiredOk "distill" p = (truthy p.id && truthy p.content) := rfl
    rw [he, hr]
    cases hid : truthy p.id
    · rw [if_pos (show (! false) = true from rfl)]
      refine ⟨⟨fun h => ?_, fun h => absurd h (by simp)⟩, fun _ => ?_⟩
      · obtain ⟨args, stdin, h⟩ := h
        exact ExecOutcome.noConfusion h
      · exact ⟨"id", rfl, hid, Or.inl rfl⟩
    · rw [if_neg hnt]
      cases hc : truthy p.content
      · rw [if_pos (show (! false) = true from rfl)]
        refine ⟨⟨fun h => ?_, fun h => absurd h (by decide)⟩, fun _ => ?_⟩
        · obtain ⟨args, stdin, h⟩ := h
          exact ExecOutcome.noConfusion h
        · exact ⟨"content", rfl, hc, Or.inr (Or.inl rfl)⟩
      · rw [if_neg hnt]
        exact ⟨⟨fun _ => rfl, fun _ => ⟨_, _, rfl⟩⟩,
          fun h => absurd h (by decide)⟩

/-- Witness for C10: `unlock` without a gate name errors naming `gate`
and runs nothing; with both parameters present it runs. -/
theorem execute_requires_params_witness :
    ((∃ args stdin,
        executeDispatch "unlock" { id := some "t1" } =
          ExecOutcome.run args stdin) ↔
      requiredOk "unlock" { id := some "t1" } = true) ∧
    (requiredOk "unlock" { id := some "t1" } = false →
      ∃ m, executeDispatch "unlock" { id := some "t1" } = ExecOutcome.err m ∧
        truthy (paramNamed { id := some "t1" } m) = false ∧
        (m = "id" ∨ m = "content" ∨ m = "patch" ∨ m = "text" ∨ m = "gate")) :=
  execute_requires_params "unlock" { id := some "t1" } (by decide)



/-! ## Gate statuses as the extension reads them
(src/extensions/index.ts lines 314-360)

The spec's data model gives gates the four statuses pending, passed,
failed, skipped, and the load-time normalization of the core preserves
them; the extension's `GateInfo`, however, declares only three. -/

/-- Translated from src/extensions/index.ts lines 314-317: the status
union of `GateInfo` — exactly `"pending" | "passed" | "skipped"`. -/
inductive ExtGateStatus
  | pending
  | passed
  | skipped
deriving DecidableEq, Repr

/-- The literal string of each `GateInfo` status union member. -/
def ExtGateStatus.asString : ExtGateStatus → String
  | .pending => "pending"
  | .passed => "passed"
  | .skipped => "skipped"

/-- Translated from src/extensions/index.ts lines 314-317: a parsed gate
entry of the extension. -/
structure GateInfo where
  name : String
  status : ExtGateStatus
deriving DecidableEq, Repr

/-- The literal string of each core gate status (spec §3). -/
def GateStatus.asString : GateStatus → String
  | .pending => "pending"
  | .passed => "passed"
  | .failed => "failed"
  | .skipped => "skipped"

/-- Modelled from the spec: the two persisted gate record shapes — a bare
name, or a name with an explicit status (§6, §9). -/
inductive GateRecord
  | bare (name : String)
  | tagged (name : String) (status : GateStatus)
deriving DecidableEq, Repr

/-- Modelled from the spec: load-time normalization of the mixed-shape
gate list — a bare name becomes `pending`, an explicit status is kept
(§6, §9). -/
def normalizeGate : GateRecord → Gate
  | .bare n => { name := n, status := GateStatus.pending }
  | .tagged n s => { name := n, status := s }

/-- The ANSI color marker `ESC [ code m`. -/
def ansiMark (code : String) : List Char :=
  Char.ofNat 27 :: '[' :: (code.data ++ ['m'])

/-- Whitespace for the `\S+` capture of the name regexes. -/
def isWsChar (c : Char) : Bool :=
  c == ' ' || c == '\t' || c == '\n' || c == '\r'

/-- The nonempty non-whitespace run right after the first matching
occurrence of `needle` (the `(\S+)` capture of the name regexes of
src/extensions/index.ts lines 338-354). -/
def nameAfter (needle : List Char) : List Char → Option String
  | [] => none
  | h :: t =>
    if isPre needle (h :: t) then
      match ((h :: t).drop needle.length).takeWhile (fun c => ! isWsChar c) with
      | [] => nameAfter needle t
      | tok => some (String.mk tok)
    else nameAfter needle t

/-- Translated from src/extensions/index.ts lines 335-357: the per-line
classification of `parseActiveTaskGates` — green (92) means passed with
the name after the gray (90) marker, else red (31) means pending with
the name after the white (37) marker, else yellow (33) means skipped
with the name after the gray (90) marker. -/
def classifyGateLine (line : List Char) : Option GateInfo :=
  if containsSeq line (ansiMark "92") then
    (nameAfter (ansiMark "90") line).map fun n =>
      { name := n, status := ExtGateStatus.passed }
  else if containsSeq line (ansiMark "31") then
    (nameAfter (ansiMark "37") line).map fun n =>
      { name := n, status := ExtGateStatus.pending }
  else if containsSeq line (ansiMark "33") then
    (nameAfter (ansiMark "90") line).map fun n =>
      { name := n, status := ExtGateStatus.skipped }
  else none

/-- Translated from src/extensions/index.ts lines 325-360: the gate list
parsed from the lines of the Gates section of mont status output (the
section extraction itself is elided). -/
def parseActiveTaskGates (gatesSection : List (List Char)) : List GateInfo :=
  gatesSection.filterMap classifyGateLine

/-- Counterexample for C4: no member of the extension status union reads
`failed`, although the core data model has a failed status and load-time
normalization preserves it — a failed gate is not representable where
the extension consumes gate lists. -/
theorem gate_failed_unrepresentable :
    ((∃ s : ExtGateStatus, ExtGateStatus.asString s = "failed") = False) ∧
    GateStatus.asString GateStatus.failed = "failed" ∧
    (normalizeGate (GateRecord.tagged "test" GateStatus.failed)).status =
      GateStatus.failed := by
  refine ⟨eq_false ?_, rfl, rfl⟩
  rintro ⟨s, hs⟩
  cases s <;> exact absurd hs (by decide)

/-- C4 as amended: every gate entry the extension parses carries one of
exactly three statuses — pending, passed, skipped, never failed — and
the status follows the ANSI color of the line: green means passed, else
red means pending, else yellow means skipped. -/
theorem ext_gate_statuses (line : List Char) (g : GateInfo)
    (h : classifyGateLine line = some g) :
    ExtGateStatus.asString g.status ≠ "failed" ∧
    (g.status = ExtGateStatus.passed ↔
      containsSeq line (ansiMark "92") = true) ∧
    (g.status = ExtGateStatus.pending →
      containsSeq line (ansiMark "31") = true ∧
      containsSeq line (ansiMark "92") = false) ∧
    (g.status = ExtGateStatus.skipped →
      containsSeq line (ansiMark "33") = true ∧
      containsSeq line (ansiMark "92") = false ∧
      containsSeq line (ansiMark "31") = false) := by
  unfold classifyGateLine at h
  cases h92 : containsSeq line (ansiMark "92")
  · rw [h92] at h
    rw [if_neg (by decide)] at h
    cases h31 : containsSeq line (ansiMark "31")
    · rw [h31] at h
      rw [if_neg (by decide)] at h
      cases h33 : containsSeq line (ansiMark "33")
      · rw [h33] at h
        rw [if_neg (by decide)] at h
        cases h
      · rw [h33] at h
        rw [if_pos rfl] at h
        obtain ⟨n, -, hg⟩ := Option.map_eq_some'.mp h
        have hs : g.status = ExtGateStatus.skipped := by rw [← hg]
        rw [hs]
        exact ⟨by decide, by decide, by decide, by decide⟩
    · rw [h31] at h
      rw [if_pos rfl] at h
      obtain ⟨n, -, hg⟩ := Option.map_eq_some'.mp h
      have hs : g.status = ExtGateStatus.pending := by rw [← hg]
      rw [hs]
      exact ⟨by decide, by decide, by decide, fun hc => absurd hc (by decide)⟩
  · rw [h92] at h
    rw [if_pos rfl] at h
    obtain ⟨n, -, hg⟩ := Option.map_eq_some'.mp h
    have hs : g.status = ExtGateStatus.passed := by rw [← hg]
    rw [hs]
    exact ⟨by decide, by decide, fun hc => absurd hc (by decide),
      fun hc => absurd hc (by decide)⟩

/-- A mont status gate line: red bullet, white name (a pending gate). -/
def sampleGateLine : List Char :=
  ansiMark "31" ++ (' ' :: []) ++ ansiMark "37" ++ "user-qa".data

/-- Witness for the amended C4: the sample pending gate line parses to a
pending entry satisfying the amended characterization. -/
theorem ext_gate_statuses_witness :
    ExtGateStatus.asString
        (GateInfo.mk "user-qa" ExtGateStatus.pending).status ≠ "failed" ∧
    ((GateInfo.mk "user-qa" ExtGateStatus.pending).status =
        ExtGateStatus.passed ↔
      containsSeq sampleGateLine (ansiMark "92") = true) ∧
    ((GateInfo.mk "user-qa" ExtGateStatus.pending).status =
        ExtGateStatus.pending →
      containsSeq sampleGateLine (ansiMark "31") = true ∧
      containsSeq sampleGateLine (ansiMark "92") = false) ∧
    ((GateInfo.mk "user-qa" ExtGateStatus.pending).status =
        ExtGateStatus.skipped →
      containsSeq sampleGateLine (ansiMark "33") = true ∧
      containsSeq sampleGateLine (ansiMark "92") = false ∧
      containsSeq sampleGateLine (ansiMark "31") = false) :=
  ext_gate_statuses sampleGateLine
    (GateInfo.mk "user-qa" ExtGateStatus.pending) (by decide)


end Mont
